import Mathlib

/-!
Verification of the core secret-store engine of the passthesalt repository
(src/passthesalt/core.py) against its natural-language specification.

The Python code is shallowly embedded: classes become structures, in-place
mutation becomes explicit state passing on the store, and raised exceptions
become an Except result that carries the store state at the moment the
exception propagates (Python exceptions do not roll back prior mutations,
so the error case must carry the possibly mutated store).

External collaborators that are part of the repository but not under the
sources given here (the crypto module, the ModifiedModel base class) and
the Python re module are modelled from the specification; each such
definition is marked in its doc comment.
-/

/-! ### A model of the Python re module (collaborator)

The store filters labels with re.compile and regex.match.  The re module is
modelled as a small regular-expression language: literal characters, the
dot wildcard, the star repetition, alternation and grouping.  Matching is
implemented with Brzozowski derivatives and proved correct against an
inductive membership semantics, so that the anchored-at-start semantics of
regex.match (match a prefix of the string, not a substring anywhere) is a
proved property of the model rather than a definition.
-/

inductive Regex where
  | emp : Regex
  | eps : Regex
  | char : Char → Regex
  | dot : Regex
  | seq : Regex → Regex → Regex
  | alt : Regex → Regex → Regex
  | star : Regex → Regex
deriving DecidableEq

/-- Does the regex accept the empty string? -/
def nullable : Regex → Bool
  | .emp => false
  | .eps => true
  | .char _ => false
  | .dot => false
  | .seq a b => nullable a && nullable b
  | .alt a b => nullable a || nullable b
  | .star _ => true

/-- Brzozowski derivative of a regex by one character. -/
def rderiv : Regex → Char → Regex
  | .emp, _ => .emp
  | .eps, _ => .emp
  | .char c, d => if c = d then .eps else .emp
  | .dot, _ => .eps
  | .seq a b, d =>
      if nullable a then .alt (.seq (rderiv a d) b) (rderiv b d)
      else .seq (rderiv a d) b
  | .alt a b, d => .alt (rderiv a d) (rderiv b d)
  | .star a, d => .seq (rderiv a d) (.star a)

/-- Anchored match at the start of the string, the semantics of Python's
regex.match: some prefix of the input (possibly empty) is accepted. -/
def matchHere (r : Regex) : List Char → Bool
  | [] => nullable r
  | c :: cs => nullable r || matchHere (rderiv r c) cs

/-- Declarative membership semantics of the regex language. -/
inductive RMatches : Regex → List Char → Prop where
  | eps : RMatches .eps []
  | char (c : Char) : RMatches (.char c) [c]
  | dot (c : Char) : RMatches .dot [c]
  | seq {a b : Regex} {s t : List Char} :
      RMatches a s → RMatches b t → RMatches (.seq a b) (s ++ t)
  | altL {a b : Regex} {s : List Char} : RMatches a s → RMatches (.alt a b) s
  | altR {a b : Regex} {s : List Char} : RMatches b s → RMatches (.alt a b) s
  | starNil {a : Regex} : RMatches (.star a) []
  | starCons {a : Regex} {s t : List Char} :
      RMatches a s → RMatches (.star a) t → RMatches (.star a) (s ++ t)

theorem nullable_of_nil {r : Regex} {l : List Char} (h : RMatches r l) (hl : l = []) :
    nullable r = true := by
  induction h with
  | eps => rfl
  | char c => simp at hl
  | dot c => simp at hl
  | seq h1 h2 ih1 ih2 =>
      rcases List.append_eq_nil.mp hl with ⟨hs, ht⟩
      simp [nullable, ih1 hs, ih2 ht]
  | altL h ih => simp [nullable, ih hl]
  | altR h ih => simp [nullable, ih hl]
  | starNil => rfl
  | starCons h1 h2 ih1 ih2 => rfl

theorem matches_nil_of_nullable {r : Regex} (h : nullable r = true) : RMatches r [] := by
  induction r with
  | emp => simp [nullable] at h
  | eps => exact .eps
  | char c => simp [nullable] at h
  | dot => simp [nullable] at h
  | seq a b iha ihb =>
      rw [nullable, Bool.and_eq_true] at h
      exact RMatches.seq (iha h.1) (ihb h.2)
  | alt a b iha ihb =>
      rw [nullable, Bool.or_eq_true] at h
      rcases h with h | h
      · exact .altL (iha h)
      · exact .altR (ihb h)
  | star a iha => exact .starNil

theorem deriv_sound {r : Regex} {c : Char} {s : List Char}
    (h : RMatches (rderiv r c) s) : RMatches r (c :: s) := by
  induction r generalizing s with
  | emp => rw [rderiv] at h; cases h
  | eps => rw [rderiv] at h; cases h
  | char c' =>
      rw [rderiv] at h
      by_cases hc : c' = c
      · rw [if_pos hc] at h
        cases h
        subst hc
        exact .char c'
      · rw [if_neg hc] at h; cases h
  | dot =>
      rw [rderiv] at h
      cases h
      exact .dot c
  | seq a b iha ihb =>
      rw [rderiv] at h
      by_cases hn : nullable a = true
      · rw [if_pos hn] at h
        cases h with
        | altL h1 =>
            cases h1 with
            | seq hda hb => exact RMatches.seq (iha hda) hb
        | altR h2 => exact RMatches.seq (matches_nil_of_nullable hn) (ihb h2)
      · rw [if_neg hn] at h
        cases h with
        | seq hda hb => exact RMatches.seq (iha hda) hb
  | alt a b iha ihb =>
      rw [rderiv] at h
      cases h with
      | altL h1 => exact .altL (iha h1)
      | altR h2 => exact .altR (ihb h2)
  | star a iha =>
      rw [rderiv] at h
      cases h with
      | seq hda hst => exact RMatches.starCons (iha hda) hst

theorem deriv_complete {r : Regex} {l : List Char} (h : RMatches r l) :
    ∀ c s, l = c :: s → RMatches (rderiv r c) s := by
  induction h with
  | eps => intro c s hcs; simp at hcs
  | char c' =>
      intro c s hcs
      injection hcs with h1 h2
      subst h1; subst h2
      rw [rderiv, if_pos rfl]
      exact .eps
  | dot c' =>
      intro c s hcs
      injection hcs with h1 h2
      subst h1; subst h2
      rw [rderiv]
      exact .eps
  | @seq a b s1 s2 h1 h2 ih1 ih2 =>
      intro c s hcs
      cases s1 with
      | nil =>
          simp only [List.nil_append] at hcs
          have hb := ih2 c s hcs
          have hn := nullable_of_nil h1 rfl
          rw [rderiv, if_pos hn]
          exact .altR hb
      | cons d s1' =>
          rw [List.cons_append] at hcs
          injection hcs with hd ht
          subst hd
          have ha := ih1 d s1' rfl
          rw [rderiv]
          by_cases hn : nullable a = true
          · rw [if_pos hn]
            have : RMatches (Regex.seq (rderiv a d) b) (s1' ++ s2) := .seq ha h2
            rw [ht] at this
            exact .altL this
          · rw [if_neg hn]
            have : RMatches (Regex.seq (rderiv a d) b) (s1' ++ s2) := .seq ha h2
            rwa [ht] at this
  | altL h ih =>
      intro c s hcs
      rw [rderiv]
      exact .altL (ih c s hcs)
  | altR h ih =>
      intro c s hcs
      rw [rderiv]
      exact .altR (ih c s hcs)
  | starNil => intro c s hcs; simp at hcs
  | @starCons a s1 s2 h1 h2 ih1 ih2 =>
      intro c s hcs
      cases s1 with
      | nil =>
          simp only [List.nil_append] at hcs
          exact ih2 c s hcs
      | cons d s1' =>
          rw [List.cons_append] at hcs
          injection hcs with hd ht
          subst hd
          rw [rderiv]
          have : RMatches (Regex.seq (rderiv a d) (Regex.star a)) (s1' ++ s2) :=
            .seq (ih1 d s1' rfl) h2
          rwa [ht] at this

/-- Correctness of the executable matcher: matchHere r s holds exactly when
some prefix of s is in the language of r (anchored-at-start semantics). -/
theorem matchHere_iff {r : Regex} {s : List Char} :
    matchHere r s = true ↔ ∃ q t, q ++ t = s ∧ RMatches r q := by
  induction s generalizing r with
  | nil =>
      rw [matchHere]
      constructor
      · intro h
        exact ⟨[], [], rfl, matches_nil_of_nullable h⟩
      · rintro ⟨q, t, hqt, hm⟩
        rcases List.append_eq_nil.mp hqt with ⟨hq, _⟩
        subst hq
        exact nullable_of_nil hm rfl
  | cons c cs ih =>
      rw [matchHere, Bool.or_eq_true]
      constructor
      · rintro (h | h)
        · exact ⟨[], c :: cs, rfl, matches_nil_of_nullable h⟩
        · obtain ⟨q, t, hqt, hm⟩ := ih.mp h
          refine ⟨c :: q, t, ?_, deriv_sound hm⟩
          rw [List.cons_append, hqt]
      · rintro ⟨q, t, hqt, hm⟩
        cases q with
        | nil =>
            left
            exact nullable_of_nil hm rfl
        | cons d q' =>
            right
            rw [List.cons_append] at hqt
            injection hqt with hd ht
            subst hd
            exact ih.mpr ⟨q', t, ht, deriv_complete hm d q' rfl⟩

/-- Apply at most one trailing star to a parsed atom; a doubled star is a
compile error (Python rejects multiple repeat). -/
def eatStar (r : Regex) : List Char → Option (Regex × List Char)
  | '*' :: '*' :: _ => none
  | '*' :: rest => some (.star r, rest)
  | rest => some (r, rest)

mutual

/-- Modelled from the spec: the atom level of re.compile over the modelled
regex subset.  Ordinary characters are literals; the dot is the wildcard; a
parenthesised group recurses into the alternation level (an unbalanced
parenthesis is a compile error); a star, bar or closing parenthesis cannot
start an atom.  Fuel makes the mutual recursion structural. -/
def parseAtom : Nat → List Char → Option (Regex × List Char)
  | 0, _ => none
  | _ + 1, [] => none
  | fuel + 1, c :: rest =>
      if c = '(' then
        match parseAlt fuel rest with
        | some (r, ')' :: rest') => some (r, rest')
        | _ => none
      else if c = ')' ∨ c = '*' ∨ c = '|' then none
      else if c = '.' then some (.dot, rest)
      else some (.char c, rest)

/-- Parse a concatenation of starred atoms, stopping at a closing
parenthesis, an alternation bar or the end of the input. -/
def parseCat : Nat → List Char → Option (Regex × List Char)
  | 0, _ => none
  | fuel + 1, input =>
      match input with
      | [] => some (.eps, [])
      | c :: _ =>
          if c = ')' ∨ c = '|' then some (.eps, input)
          else
            match parseAtom fuel input with
            | none => none
            | some (r, rest) =>
                match eatStar r rest with
                | none => none
                | some (r', rest') =>
                    match parseCat fuel rest' with
                    | none => none
                    | some (r2, rest'') => some (.seq r' r2, rest'')

/-- Parse an alternation of concatenations. -/
def parseAlt : Nat → List Char → Option (Regex × List Char)
  | 0, _ => none
  | fuel + 1, input =>
      match parseCat fuel input with
      | none => none
      | some (r, rest) =>
          match rest with
          | '|' :: rest' =>
              match parseAlt fuel rest' with
              | none => none
              | some (r2, rest'') => some (.alt r r2, rest'')
          | _ => some (r, rest)

end

/-- Modelled from the spec: re.compile.  Succeeds when the whole pattern
parses; an invalid pattern (unbalanced parenthesis, star with nothing to
repeat, doubled star) yields none, standing for Python's re.error.  The
fuel bound suffices because every four nested calls consume a character. -/
def reCompile (p : String) : Option Regex :=
  match parseAlt (4 * (p.length + 1)) p.data with
  | some (r, []) => some r
  | _ => none

/-! ### Data model

Embedding of src/passthesalt/core.py.  Python in-place mutation of the
store becomes explicit state passing: every operation that can both mutate
the store and raise returns an Except whose error case carries the store
state at the moment the exception propagates, because Python exceptions do
not undo prior mutations.
-/

/-- Error kinds raised by the core (passthesalt.error collaborators plus
the Python builtin exceptions that can escape the core). -/
inductive Error where
  | configurationError
  | contextError
  | labelError
  | decryptionError
  | keyError
  | attributeError
deriving DecidableEq

/-- Modelled from the spec: a ciphertext blob produced by the external
authenticated symmetric cipher (passthesalt.crypto encrypt/decrypt).  The
blob determines the mapping it encrypts and the key it was encrypted
under; decryption with the wrong key fails loudly. -/
structure Cipher where
  data : List (String × String)
  key : String
deriving DecidableEq

/-- Modelled from the spec: the encrypt collaborator. -/
def encrypt (m : List (String × String)) (key : String) : Cipher :=
  ⟨m, key⟩

/-- Modelled from the spec: the decrypt collaborator; wrong-key decryption
is a fatal error, never a silently empty result. -/
def decrypt (c : Cipher) (key : String) : Except Error (List (String × String)) :=
  if c.key = key then .ok c.data else .error .decryptionError

/-- Modelled from the spec: the deterministic derivation collaborator
(passthesalt.crypto generate); a pure function of salt, key, version and
length, so any injective encoding of its arguments is a faithful model. -/
def generate (salt key : String) (version : Nat) (length : Option Nat) : String :=
  String.intercalate "#" ([salt, key, toString version] ++ (length.map toString).toList)

/-- Model of Python's pipe.join used for the master key and the Login salt. -/
def joinPipe : List String → String
  | [] => ""
  | [x] => x
  | x :: xs => x ++ "|" ++ joinPipe xs

/-- The Algorithm record: version (default 1) and optional length. -/
structure Algorithm where
  version : Nat
  length : Option Nat
deriving DecidableEq

/-- The closed set of Secret variants with their per-variant fields.  For
Encrypted, the transient plaintext field is present only between
construction and the first successful add, after which the code deletes it
from the in-memory record (modelled as none). -/
inductive SecretData where
  | generatable (salt : String) (algorithm : Algorithm)
  | login (domain username : String) (iteration : Option Nat) (algorithm : Algorithm)
  | encrypted (secret : Option String)
deriving DecidableEq

/-- A Secret together with its context state.  In the source the context
is the transient pair of the label and the store back-reference, set and
removed together by add_context and remove_context; in this single-store
embedding the store half is the explicitly threaded store, so the context
reduces to the optional label.  none is the unbound state in which
accessing the context raises ContextError. -/
structure Secret where
  data : SecretData
  label : Option String
deriving DecidableEq

/-- The salt property of Login: domain, username and iteration joined by
pipes, with a missing (or zero) iteration rendered as zero. -/
def loginSalt (domain username : String) (iteration : Option Nat) : String :=
  joinPipe [domain, username, toString (iteration.getD 0)]

/-- The store Config record (the optional Master verification record is
not consumed by any operation modelled here and is omitted). -/
structure Config where
  owner : Option String
deriving DecidableEq

/-- The runtime master-password source: a plain string, or a zero-argument
callback.  The callback is modelled by the value it returns; its one
permitted invocation is recorded by the store's invocation counter. -/
inductive MasterSource where
  | str (value : String)
  | callback (result : String)
deriving DecidableEq

/-- The PassTheSalt store: config, the ordered label-to-secret mapping,
the optional encrypted-substore ciphertext, and the modified timestamp
(from the ModifiedModel contract, modelled as a counter).  master is the
transient master-password source; masterInvocations instruments the model
by counting callback invocations and is not a field of the source. -/
structure PassTheSalt where
  config : Config
  secrets : List (String × Secret)
  secrets_encrypted : Option Cipher
  modified : Nat
  master : Option MasterSource
  masterInvocations : Nat
deriving DecidableEq

/-- Modelled from the spec: ModifiedModel.touch updates the modified
timestamp. -/
def touch (pts : PassTheSalt) : PassTheSalt :=
  { pts with modified := pts.modified + 1 }

/-- Ordered-dictionary lookup. -/
def assocGet {α : Type} (m : List (String × α)) (k : String) : Option α :=
  match m with
  | [] => none
  | (k', v) :: rest => if k' = k then some v else assocGet rest k

/-- Ordered-dictionary membership. -/
def assocHas {α : Type} (m : List (String × α)) (k : String) : Bool :=
  (assocGet m k).isSome

/-- Ordered-dictionary insert-or-overwrite: overwriting keeps the original
position, a new key is appended, as for a Python dict. -/
def assocSet {α : Type} (m : List (String × α)) (k : String) (v : α) : List (String × α) :=
  match m with
  | [] => [(k, v)]
  | (k', v') :: rest => if k' = k then (k', v) :: rest else (k', v') :: assocSet rest k v

/-- Ordered-dictionary deletion. -/
def assocErase {α : Type} (m : List (String × α)) (k : String) : List (String × α) :=
  match m with
  | [] => []
  | (k', v') :: rest => if k' = k then rest else (k', v') :: assocErase rest k

/-! ### Store operations (PassTheSalt.master_key and the Encrypted
substore protocol) -/

/-- The master key string built by PassTheSalt.master_key from the config
owner and the master password: the owner is appended to the key list only
when truthy (a configured empty owner string is falsy in Python), then the
master, and the list is joined with pipes. -/
def masterKeyOf (owner : Option String) (master : String) : String :=
  joinPipe
    (match owner with
     | some o => if o = "" then [master] else [o, master]
     | none => [master])

/-- PassTheSalt.master_key: fails with ConfigurationError when no source
is configured; a callback source is invoked (bumping the instrumentation
counter) and replaced by its cached string result; then the key is built
from the owner and the cached master. -/
def masterKey (pts : PassTheSalt) : Except (Error × PassTheSalt) (String × PassTheSalt) :=
  match pts.master with
  | none => .error (.configurationError, pts)
  | some (.callback r) =>
      let pts' := { pts with
        master := some (.str r), masterInvocations := pts.masterInvocations + 1 }
      .ok (masterKeyOf pts'.config.owner r, pts')
  | some (.str m) => .ok (masterKeyOf pts.config.owner m, pts)

/-- Encrypted._decrypt: an absent ciphertext decrypts to the empty
mapping without consulting the master key; otherwise the blob is decrypted
with the master key (which may itself fail with ConfigurationError, and
the decryption may fail fatally on a wrong key). -/
def ptsDecrypt (pts : PassTheSalt) :
    Except (Error × PassTheSalt) (List (String × String) × PassTheSalt) :=
  match pts.secrets_encrypted with
  | none => .ok ([], pts)
  | some c =>
      match masterKey pts with
      | .error ep => .error ep
      | .ok (key, pts') =>
          match decrypt c key with
          | .error e => .error (e, pts')
          | .ok m => .ok (m, pts')

/-- Encrypted._encrypt: an empty mapping clears the ciphertext to absent
(never an encryption of an empty mapping); otherwise the whole mapping is
encrypted under the current master key. -/
def ptsEncrypt (pts : PassTheSalt) (m : List (String × String)) :
    Except (Error × PassTheSalt) PassTheSalt :=
  match m with
  | [] => .ok { pts with secrets_encrypted := none }
  | _ :: _ =>
      match masterKey pts with
      | .error ep => .error ep
      | .ok (key, pts') => .ok { pts' with secrets_encrypted := some (encrypt m key) }

/-- Secret.get dispatched over the variants.  An unbound secret fails with
ContextError on its first context access.  Generatable and Login call the
derivation collaborator with their salt, the master key and the algorithm
parameters; Encrypted decrypts the substore and looks its label up,
translating a missing label into LabelError. -/
def Secret.get (s : Secret) (pts : PassTheSalt) :
    Except (Error × PassTheSalt) (String × PassTheSalt) :=
  match s.label with
  | none => .error (.contextError, pts)
  | some lbl =>
      match s.data with
      | .generatable salt alg =>
          match masterKey pts with
          | .error ep => .error ep
          | .ok (key, pts') => .ok (generate salt key alg.version alg.length, pts')
      | .login d u i alg =>
          match masterKey pts with
          | .error ep => .error ep
          | .ok (key, pts') => .ok (generate (loginSalt d u i) key alg.version alg.length, pts')
      | .encrypted _ =>
          match ptsDecrypt pts with
          | .error ep => .error ep
          | .ok (m, pts') =>
              match assocGet m lbl with
              | some v => .ok (v, pts')
              | none => .error (.labelError, pts')

/-- Secret.add dispatched over the variants.  The base behaviour (used by
Generatable and Login) only asserts the context.  Encrypted decrypts the
substore, stores its transient plaintext under its label (reading the
already-deleted transient field raises AttributeError), deletes the
transient field from the in-memory record and re-encrypts the whole
mapping. -/
def Secret.add (s : Secret) (pts : PassTheSalt) :
    Except (Error × PassTheSalt) (Secret × PassTheSalt) :=
  match s.label with
  | none => .error (.contextError, pts)
  | some lbl =>
      match s.data with
      | .encrypted t =>
          match ptsDecrypt pts with
          | .error ep => .error ep
          | .ok (m, pts') =>
              match t with
              | none => .error (.attributeError, pts')
              | some v =>
                  match ptsEncrypt pts' (assocSet m lbl v) with
                  | .error ep => .error ep
                  | .ok pts'' => .ok ({ s with data := .encrypted none }, pts'')
      | _ => .ok (s, pts)

/-- Secret.remove dispatched over the variants.  The base behaviour only
asserts the context.  Encrypted decrypts the substore, deletes its label
(a missing label propagates the KeyError of the del statement) and
re-encrypts the remaining mapping. -/
def Secret.remove (s : Secret) (pts : PassTheSalt) :
    Except (Error × PassTheSalt) (Secret × PassTheSalt) :=
  match s.label with
  | none => .error (.contextError, pts)
  | some lbl =>
      match s.data with
      | .encrypted _ =>
          match ptsDecrypt pts with
          | .error ep => .error ep
          | .ok (m, pts') =>
              if assocHas m lbl then
                match ptsEncrypt pts' (assocErase m lbl) with
                | .error ep => .error ep
                | .ok pts'' => .ok (s, pts'')
              else .error (.keyError, pts')
      | _ => .ok (s, pts)

/-! ### Store CRUD and label resolution -/

/-- PassTheSalt.contains: exact membership of the label in the mapping. -/
def PassTheSalt.contains (pts : PassTheSalt) (label : String) : Bool :=
  assocHas pts.secrets label

/-- PassTheSalt.labels: all labels, optionally filtered by a regex pattern
matched against the start of each label; a pattern that fails to compile
raises LabelError.  The empty pattern is falsy in Python, so it is not
compiled and no filtering happens. -/
def PassTheSalt.labels (pts : PassTheSalt) (pattern : Option String) :
    Except Error (List String) :=
  let ls := pts.secrets.map Prod.fst
  match pattern with
  | none => .ok ls
  | some p =>
      if p = "" then .ok ls
      else
        match reCompile p with
        | none => .error .labelError
        | some r => .ok (ls.filter (fun l => matchHere r l.data))

/-- PassTheSalt.resolve: an existing label resolves to itself directly;
otherwise the pattern must match exactly one label through labels, and
zero or several matches raise LabelError. -/
def PassTheSalt.resolve (pts : PassTheSalt) (pattern : String) : Except Error String :=
  if pts.contains pattern then .ok pattern
  else
    match pts.labels (some pattern) with
    | .error e => .error e
    | .ok ms =>
        match ms with
        | [m] => .ok m
        | [] => .error .labelError
        | _ :: _ :: _ => .error .labelError

/-- PassTheSalt.add: an existing label raises LabelError before anything
is mutated; otherwise the secret is bound to the label, its add protocol
runs, it is inserted into the mapping and the store is touched. -/
def PassTheSalt.add (pts : PassTheSalt) (label : String) (secret : Secret) :
    Except (Error × PassTheSalt) PassTheSalt :=
  if pts.contains label then .error (.labelError, pts)
  else
    match Secret.add { secret with label := some label } pts with
    | .error ep => .error ep
    | .ok (s', pts') => .ok (touch { pts' with secrets := pts'.secrets ++ [(label, s')] })

/-- PassTheSalt.get: direct mapping lookup (the missing-key error of the
underlying mapping is modelled by none). -/
def PassTheSalt.get (pts : PassTheSalt) (label : String) : Option Secret :=
  assocGet pts.secrets label

/-- PassTheSalt.pop: a missing label raises LabelError before anything is
mutated; otherwise the secret is removed from the mapping, its remove
protocol runs, its context is unbound, and the store is touched. -/
def PassTheSalt.pop (pts : PassTheSalt) (label : String) :
    Except (Error × PassTheSalt) (Secret × PassTheSalt) :=
  match assocGet pts.secrets label with
  | none => .error (.labelError, pts)
  | some secret =>
      match Secret.remove secret { pts with secrets := assocErase pts.secrets label } with
      | .error ep => .error ep
      | .ok (s', pts2) => .ok ({ s' with label := none }, touch pts2)

/-- PassTheSalt.remove: pop discarding the result. -/
def PassTheSalt.remove (pts : PassTheSalt) (label : String) :
    Except (Error × PassTheSalt) PassTheSalt :=
  match pts.pop label with
  | .error ep => .error ep
  | .ok (_, pts') => .ok pts'

/-- PassTheSalt.move: an existing new label raises LabelError; otherwise
pop under the old label followed by add under the new label. -/
def PassTheSalt.move (pts : PassTheSalt) (label new_label : String) :
    Except (Error × PassTheSalt) PassTheSalt :=
  if pts.contains new_label then .error (.labelError, pts)
  else
    match pts.pop label with
    | .error ep => .error ep
    | .ok (s, pts') => pts'.add new_label s

/-! ### Frame and invariant helper lemmas -/

/-- Equality of the three persisted store fields named by the
no-partial-success property: the mapping, the ciphertext, the timestamp. -/
def frameEq (a b : PassTheSalt) : Prop :=
  a.secrets = b.secrets ∧ a.secrets_encrypted = b.secrets_encrypted ∧ a.modified = b.modified

/-- The store carried out of an operation, whether it succeeded or
raised. -/
def outStore {α : Type} : Except (Error × PassTheSalt) (α × PassTheSalt) → PassTheSalt
  | .error (_, q) => q
  | .ok (_, q) => q

/-- The master key the configured source denotes, independent of whether
the callback has been invoked yet (the callback caches to the same
string). -/
def currentKey (pts : PassTheSalt) : Option String :=
  match pts.master with
  | none => none
  | some (.str m) => some (masterKeyOf pts.config.owner m)
  | some (.callback r) => some (masterKeyOf pts.config.owner r)

/-- The encrypted-substore invariant: the ciphertext is never an
encryption of an empty mapping, and it is encrypted under the current
master key. -/
def EncInv (pts : PassTheSalt) : Prop :=
  ∀ c, pts.secrets_encrypted = some c → c.data ≠ [] ∧ currentKey pts = some c.key

theorem encInv_update {p : PassTheSalt} (h : EncInv p) {q : PassTheSalt}
    (he : q.secrets_encrypted = p.secrets_encrypted) (hk : currentKey q = currentKey p) :
    EncInv q := by
  intro c hc
  rw [he] at hc
  rcases h c hc with ⟨h1, h2⟩
  exact ⟨h1, by rw [hk, h2]⟩

theorem masterKey_err {pts : PassTheSalt} {e : Error} {q : PassTheSalt}
    (h : masterKey pts = .error (e, q)) : e = .configurationError ∧ q = pts := by
  cases hm : pts.master with
  | none =>
      simp [masterKey, hm] at h
      exact ⟨h.1.symm, h.2.symm⟩
  | some src =>
      cases src with
      | str m => simp [masterKey, hm] at h
      | callback r => simp [masterKey, hm] at h

theorem masterKey_ok {pts : PassTheSalt} {k : String} {q : PassTheSalt}
    (h : masterKey pts = .ok (k, q)) :
    q.secrets = pts.secrets ∧ q.secrets_encrypted = pts.secrets_encrypted ∧
    q.modified = pts.modified ∧ q.config = pts.config ∧
    currentKey q = some k ∧ currentKey pts = some k := by
  cases hm : pts.master with
  | none => simp [masterKey, hm] at h
  | some src =>
      cases src with
      | str m =>
          simp [masterKey, hm] at h
          rcases h with ⟨hk, hq⟩
          subst hq
          exact ⟨rfl, rfl, rfl, rfl, by simp [currentKey, hm, hk], by simp [currentKey, hm, hk]⟩
      | callback r =>
          simp [masterKey, hm] at h
          rcases h with ⟨hk, hq⟩
          subst hq
          refine ⟨rfl, rfl, rfl, rfl, ?_, ?_⟩
          · simp [currentKey, ← hk]
          · simp [currentKey, hm, ← hk]

theorem ptsDecrypt_ok {pts : PassTheSalt} {m : List (String × String)} {q : PassTheSalt}
    (h : ptsDecrypt pts = .ok (m, q)) :
    q.secrets = pts.secrets ∧ q.secrets_encrypted = pts.secrets_encrypted ∧
    q.modified = pts.modified ∧ q.config = pts.config ∧
    currentKey q = currentKey pts := by
  unfold ptsDecrypt at h
  split at h
  · simp only [Except.ok.injEq, Prod.mk.injEq] at h
    rcases h with ⟨hm, hq⟩
    subst hq
    exact ⟨rfl, rfl, rfl, rfl, rfl⟩
  · split at h
    · cases h
    · rename_i k p1 hmk
      rcases masterKey_ok hmk with ⟨h1, h2, h3, h4, h5, h6⟩
      split at h
      · cases h
      · simp only [Except.ok.injEq, Prod.mk.injEq] at h
        rcases h with ⟨hm, hq⟩
        subst hq
        exact ⟨h1, h2, h3, h4, by rw [h5, h6]⟩

theorem ptsDecrypt_err {pts : PassTheSalt} {e : Error} {q : PassTheSalt}
    (h : ptsDecrypt pts = .error (e, q)) :
    q.secrets = pts.secrets ∧ q.secrets_encrypted = pts.secrets_encrypted ∧
    q.modified = pts.modified ∧ q.config = pts.config ∧
    currentKey q = currentKey pts ∧
    (e = .configurationError ∨ e = .decryptionError) := by
  unfold ptsDecrypt at h
  split at h
  · cases h
  · split at h
    · rename_i ep hmk
      obtain ⟨e1, q1⟩ := ep
      simp only [Except.error.injEq, Prod.mk.injEq] at h
      rcases h with ⟨he, hq⟩
      rcases masterKey_err hmk with ⟨he1, hq1⟩
      subst hq; subst hq1
      subst he
      exact ⟨rfl, rfl, rfl, rfl, rfl, Or.inl he1⟩
    · rename_i k p1 hmk
      rcases masterKey_ok hmk with ⟨h1, h2, h3, h4, h5, h6⟩
      split at h
      · rename_i e1 hdec
        simp only [Except.error.injEq, Prod.mk.injEq] at h
        rcases h with ⟨he, hq⟩
        subst hq; subst he
        unfold decrypt at hdec
        split at hdec
        · cases hdec
        · simp only [Except.error.injEq] at hdec
          exact ⟨h1, h2, h3, h4, by rw [h5, h6], Or.inr hdec.symm⟩
      · cases h

theorem ptsEncrypt_ok {pts : PassTheSalt} {m : List (String × String)} {q : PassTheSalt}
    (h : ptsEncrypt pts m = .ok q) :
    q.secrets = pts.secrets ∧ q.modified = pts.modified ∧
    currentKey q = currentKey pts ∧ EncInv q := by
  unfold ptsEncrypt at h
  split at h
  · simp only [Except.ok.injEq] at h
    subst h
    refine ⟨rfl, rfl, rfl, ?_⟩
    intro c hc
    cases hc
  · rename_i x xs
    split at h
    · cases h
    · rename_i k p1 hmk
      rcases masterKey_ok hmk with ⟨h1, h2, h3, h4, h5, h6⟩
      simp only [Except.ok.injEq] at h
      subst h
      refine ⟨h1, h3, ?_, ?_⟩
      · have : currentKey { p1 with secrets_encrypted := some (encrypt (x :: xs) k) }
            = currentKey p1 := rfl
        rw [this, h5, h6]
      · intro c hc
        simp only [Option.some.injEq] at hc
        subst hc
        refine ⟨by simp [encrypt], ?_⟩
        have : currentKey { p1 with secrets_encrypted := some (encrypt (x :: xs) k) }
            = currentKey p1 := rfl
        rw [this, h5]
        rfl

theorem ptsEncrypt_err {pts : PassTheSalt} {m : List (String × String)} {e : Error}
    {q : PassTheSalt} (h : ptsEncrypt pts m = .error (e, q)) :
    q = pts ∧ e = .configurationError := by
  unfold ptsEncrypt at h
  split at h
  · cases h
  · split at h
    · rename_i ep hmk
      obtain ⟨e1, q1⟩ := ep
      simp only [Except.error.injEq, Prod.mk.injEq] at h
      rcases h with ⟨he, hq⟩
      rcases masterKey_err hmk with ⟨he1, hq1⟩
      subst hq; subst hq1; subst he
      exact ⟨rfl, he1⟩
    · cases h

theorem secret_add_ok {s : Secret} {pts : PassTheSalt} {s' : Secret} {pts' : PassTheSalt}
    (h : Secret.add s pts = .ok (s', pts')) :
    pts'.secrets = pts.secrets ∧ pts'.modified = pts.modified ∧
    currentKey pts' = currentKey pts ∧ (EncInv pts → EncInv pts') := by
  unfold Secret.add at h
  split at h
  · cases h
  · split at h
    · split at h
      · cases h
      · rename_i m p1 hdec
        rcases ptsDecrypt_ok hdec with ⟨d1, d2, d3, d4, d5⟩
        split at h
        · cases h
        · split at h
          · cases h
          · rename_i p2 henc
            rcases ptsEncrypt_ok henc with ⟨e1, e2, e3, e4⟩
            simp only [Except.ok.injEq, Prod.mk.injEq] at h
            rcases h with ⟨hs, hq⟩
            subst hq
            exact ⟨by rw [e1, d1], by rw [e2, d3], by rw [e3, d5], fun _ => e4⟩
    · simp only [Except.ok.injEq, Prod.mk.injEq] at h
      rcases h with ⟨hs, hq⟩
      subst hq
      exact ⟨rfl, rfl, rfl, fun hi => hi⟩

theorem secret_add_err {s : Secret} {pts : PassTheSalt} {l : String} {e : Error}
    {q : PassTheSalt} (hl : s.label = some l) (h : Secret.add s pts = .error (e, q)) :
    e ≠ .contextError ∧ q.secrets = pts.secrets ∧
    q.secrets_encrypted = pts.secrets_encrypted ∧ q.modified = pts.modified := by
  unfold Secret.add at h
  split at h
  · rename_i hnone
    rw [hnone] at hl
    cases hl
  · split at h
    · split at h
      · rename_i ep hdec
        obtain ⟨e1, q1⟩ := ep
        simp only [Except.error.injEq, Prod.mk.injEq] at h
        rcases h with ⟨he, hq⟩
        subst he; subst hq
        rcases ptsDecrypt_err hdec with ⟨d1, d2, d3, _, _, hor⟩
        refine ⟨?_, d1, d2, d3⟩
        rcases hor with h | h <;> simp [h]
      · rename_i m p1 hdec
        rcases ptsDecrypt_ok hdec with ⟨d1, d2, d3, _, _⟩
        split at h
        · simp only [Except.error.injEq, Prod.mk.injEq] at h
          rcases h with ⟨he, hq⟩
          subst he; subst hq
          exact ⟨by simp, d1, d2, d3⟩
        · split at h
          · rename_i ep henc
            obtain ⟨e1, q1⟩ := ep
            simp only [Except.error.injEq, Prod.mk.injEq] at h
            rcases h with ⟨he, hq⟩
            subst he; subst hq
            rcases ptsEncrypt_err henc with ⟨hq1, he1⟩
            subst hq1; subst he1
            exact ⟨by simp, d1, d2, d3⟩
          · cases h
    · cases h

theorem secret_remove_ok {s : Secret} {pts : PassTheSalt} {s' : Secret} {pts' : PassTheSalt}
    (h : Secret.remove s pts = .ok (s', pts')) :
    pts'.secrets = pts.secrets ∧ pts'.modified = pts.modified ∧
    currentKey pts' = currentKey pts ∧ (EncInv pts → EncInv pts') := by
  unfold Secret.remove at h
  split at h
  · cases h
  · split at h
    · split at h
      · cases h
      · rename_i m p1 hdec
        rcases ptsDecrypt_ok hdec with ⟨d1, d2, d3, d4, d5⟩
        split at h
        · split at h
          · cases h
          · rename_i p2 henc
            rcases ptsEncrypt_ok henc with ⟨e1, e2, e3, e4⟩
            simp only [Except.ok.injEq, Prod.mk.injEq] at h
            rcases h with ⟨hs, hq⟩
            subst hq
            exact ⟨by rw [e1, d1], by rw [e2, d3], by rw [e3, d5], fun _ => e4⟩
        · cases h
    · simp only [Except.ok.injEq, Prod.mk.injEq] at h
      rcases h with ⟨hs, hq⟩
      subst hq
      exact ⟨rfl, rfl, rfl, fun hi => hi⟩

theorem secret_remove_err {s : Secret} {pts : PassTheSalt} {l : String} {e : Error}
    {q : PassTheSalt} (hl : s.label = some l) (h : Secret.remove s pts = .error (e, q)) :
    e ≠ .contextError := by
  unfold Secret.remove at h
  split at h
  · rename_i hnone
    rw [hnone] at hl
    cases hl
  · split at h
    · split at h
      · rename_i ep hdec
        obtain ⟨e1, q1⟩ := ep
        simp only [Except.error.injEq, Prod.mk.injEq] at h
        rcases h with ⟨he, hq⟩
        subst he
        rcases ptsDecrypt_err hdec with ⟨_, _, _, _, _, hor⟩
        rcases hor with h | h <;> simp [h]
      · split at h
        · split at h
          · rename_i ep henc
            obtain ⟨e1, q1⟩ := ep
            simp only [Except.error.injEq, Prod.mk.injEq] at h
            rcases h with ⟨he, hq⟩
            subst he
            rcases ptsEncrypt_err henc with ⟨_, he1⟩
            simp [he1]
          · cases h
        · simp only [Except.error.injEq, Prod.mk.injEq] at h
          rcases h with ⟨he, hq⟩
          subst he
          simp
    · cases h

theorem secret_get_frame (s : Secret) (pts : PassTheSalt) :
    frameEq pts (outStore (Secret.get s pts)) ∧
    ∀ e q, Secret.get s pts = .error (e, q) → s.label = none ∨ e ≠ .contextError := by
  unfold Secret.get
  split
  · exact ⟨⟨rfl, rfl, rfl⟩, fun e q _ => Or.inl (by assumption)⟩
  · rename_i lbl hlbl
    split
    · constructor
      · cases hmk : masterKey pts with
        | error ep =>
            obtain ⟨e1, q1⟩ := ep
            rcases masterKey_err hmk with ⟨_, hq⟩
            subst hq
            exact ⟨rfl, rfl, rfl⟩
        | ok kp =>
            obtain ⟨k, p1⟩ := kp
            rcases masterKey_ok hmk with ⟨h1, h2, h3, _, _, _⟩
            simp only [hmk, outStore]
            exact ⟨h1.symm, h2.symm, h3.symm⟩
      · intro e q h
        split at h
        · rename_i ep hmk
          obtain ⟨e1, q1⟩ := ep
          simp only [Except.error.injEq, Prod.mk.injEq] at h
          rcases masterKey_err hmk with ⟨he1, _⟩
          rcases h with ⟨he, _⟩
          subst he
          simp [he1]
        · cases h
    · constructor
      · cases hmk : masterKey pts with
        | error ep =>
            obtain ⟨e1, q1⟩ := ep
            rcases masterKey_err hmk with ⟨_, hq⟩
            subst hq
            exact ⟨rfl, rfl, rfl⟩
        | ok kp =>
            obtain ⟨k, p1⟩ := kp
            rcases masterKey_ok hmk with ⟨h1, h2, h3, _, _, _⟩
            simp only [hmk, outStore]
            exact ⟨h1.symm, h2.symm, h3.symm⟩
      · intro e q h
        split at h
        · rename_i ep hmk
          obtain ⟨e1, q1⟩ := ep
          simp only [Except.error.injEq, Prod.mk.injEq] at h
          rcases masterKey_err hmk with ⟨he1, _⟩
          rcases h with ⟨he, _⟩
          subst he
          simp [he1]
        · cases h
    · constructor
      · cases hdec : ptsDecrypt pts with
        | error ep =>
            obtain ⟨e1, q1⟩ := ep
            rcases ptsDecrypt_err hdec with ⟨d1, d2, d3, _, _, _⟩
            simp only [hdec, outStore]
            exact ⟨d1.symm, d2.symm, d3.symm⟩
        | ok mp =>
            obtain ⟨m, p1⟩ := mp
            rcases ptsDecrypt_ok hdec with ⟨d1, d2, d3, _, _⟩
            simp only [hdec]
            split
            · simp only [outStore]
              exact ⟨d1.symm, d2.symm, d3.symm⟩
            · simp only [outStore]
              exact ⟨d1.symm, d2.symm, d3.symm⟩
      · intro e q h
        split at h
        · rename_i ep hdec
          obtain ⟨e1, q1⟩ := ep
          simp only [Except.error.injEq, Prod.mk.injEq] at h
          rcases ptsDecrypt_err hdec with ⟨_, _, _, _, _, hor⟩
          rcases h with ⟨he, _⟩
          subst he
          refine Or.inr ?_
          rcases hor with h | h <;> simp [h]
        · rename_i m p1 hdec
          split at h
          · cases h
          · simp only [Except.error.injEq, Prod.mk.injEq] at h
            rcases h with ⟨he, _⟩
            subst he
            simp

theorem assocHas_append_self {α : Type} (m : List (String × α)) (k : String) (v : α) :
    assocHas (m ++ [(k, v)]) k = true := by
  induction m with
  | nil => simp [assocHas, assocGet]
  | cons p rest ih =>
      obtain ⟨k', v'⟩ := p
      by_cases hk : k' = k
      · simp [assocHas, assocGet, hk]
      · simpa [assocHas, assocGet, hk] using ih

theorem store_add_inv {pts : PassTheSalt} {lbl : String} {s : Secret} {pts' : PassTheSalt}
    (h : pts.add lbl s = .ok pts') (hi : EncInv pts) : EncInv pts' := by
  unfold PassTheSalt.add at h
  split at h
  · cases h
  · split at h
    · cases h
    · rename_i s1 p1 hadd
      simp only [Except.ok.injEq] at h
      subst h
      exact encInv_update ((secret_add_ok hadd).2.2.2 hi) rfl rfl

theorem store_pop_inv {pts : PassTheSalt} {lbl : String} {s : Secret} {pts' : PassTheSalt}
    (h : pts.pop lbl = .ok (s, pts')) (hi : EncInv pts) : EncInv pts' := by
  unfold PassTheSalt.pop at h
  split at h
  · cases h
  · rename_i sec hget
    split at h
    · cases h
    · rename_i s1 p2 hrem
      simp only [Except.ok.injEq, Prod.mk.injEq] at h
      rcases h with ⟨_, hq⟩
      subst hq
      have hi1 : EncInv { pts with secrets := assocErase pts.secrets lbl } :=
        encInv_update hi rfl rfl
      exact encInv_update ((secret_remove_ok hrem).2.2.2 hi1) rfl rfl

theorem store_remove_inv {pts : PassTheSalt} {lbl : String} {pts' : PassTheSalt}
    (h : pts.remove lbl = .ok pts') (hi : EncInv pts) : EncInv pts' := by
  unfold PassTheSalt.remove at h
  split at h
  · cases h
  · rename_i s1 p1 hpop
    simp only [Except.ok.injEq] at h
    subst h
    exact store_pop_inv hpop hi

theorem store_move_inv {pts : PassTheSalt} {lbl lbl' : String} {pts' : PassTheSalt}
    (h : pts.move lbl lbl' = .ok pts') (hi : EncInv pts) : EncInv pts' := by
  unfold PassTheSalt.move at h
  split at h
  · cases h
  · split at h
    · cases h
    · rename_i s1 p1 hpop
      exact store_add_inv h (store_pop_inv hpop hi)

/-- One successful store mutation. -/
inductive StoreStep : PassTheSalt → PassTheSalt → Prop where
  | add {pts pts' : PassTheSalt} (lbl : String) (s : Secret) :
      pts.add lbl s = .ok pts' → StoreStep pts pts'
  | pop {pts pts' : PassTheSalt} (lbl : String) (s : Secret) :
      pts.pop lbl = .ok (s, pts') → StoreStep pts pts'
  | remove {pts pts' : PassTheSalt} (lbl : String) :
      pts.remove lbl = .ok pts' → StoreStep pts pts'
  | move {pts pts' : PassTheSalt} (lbl lbl' : String) :
      pts.move lbl lbl' = .ok pts' → StoreStep pts pts'

/-! ### Concrete stores used by witnesses and counterexamples -/

/-- An empty store configured with the master password string m. -/
def emptyStoreM : PassTheSalt := ⟨⟨none⟩, [], none, 0, some (.str "m"), 0⟩

/-- A freshly constructed, unbound Encrypted secret holding plaintext v. -/
def encA : Secret := ⟨.encrypted (some "v"), none⟩

/-- The store obtained by adding encA under label a to emptyStoreM. -/
def storeA : PassTheSalt :=
  ⟨⟨none⟩, [("a", ⟨.encrypted none, some "a"⟩)], some ⟨[("a", "v")], "m"⟩, 1,
   some (.str "m"), 0⟩

/-- The store in which the move of label a has destroyed the secret. -/
def storeALost : PassTheSalt := ⟨⟨none⟩, [], none, 2, some (.str "m"), 0⟩

/-- A store holding a bound Encrypted secret and a ciphertext, but with no
configured master-password source. -/
def storeNoMaster : PassTheSalt :=
  ⟨⟨none⟩, [("a", ⟨.encrypted none, some "a"⟩)], some ⟨[("a", "v")], "k"⟩, 0, none, 0⟩

/-- The three-label store of the specification's resolve example. -/
def demoStore : PassTheSalt :=
  ⟨⟨none⟩,
   [("work/email", ⟨.generatable "s1" ⟨1, none⟩, some "work/email"⟩),
    ("work/vpn", ⟨.generatable "s2" ⟨1, none⟩, some "work/vpn"⟩),
    ("home/wifi", ⟨.generatable "s3" ⟨1, none⟩, some "home/wifi"⟩)],
   none, 0, none, 0⟩

/-- A store whose only label is itself an invalid regex pattern. -/
def parenStore : PassTheSalt :=
  ⟨⟨none⟩, [("ab(", ⟨.generatable "s" ⟨1, none⟩, some "ab("⟩)], none, 0, none, 0⟩

/-- A store with an owner and a callback master-password source. -/
def cbStore : PassTheSalt := ⟨⟨some "alice"⟩, [], none, 0, some (.callback "pw"), 0⟩

/-! ### The claims -/

/-- C1.  The claim states that move of an Encrypted secret round-trips the
secret through decrypt-delete-reencrypt and decrypt-insert-reencrypt,
ending with the new label holding the same decrypted value.  The code
cannot do this: Encrypted.add deleted the transient plaintext field at the
first add, so the re-add during move reads a missing attribute and raises
AttributeError after pop has already removed the label and cleared the
ciphertext — the move destroys the secret.  This theorem evaluates the
code at the failing input: a legitimately built one-secret store whose
move raises AttributeError and loses both labels and the ciphertext. -/
theorem c1_move_encrypted_data_loss :
    emptyStoreM.add "a" encA = .ok storeA ∧
    storeA.move "a" "b" = .error (.attributeError, storeALost) ∧
    storeALost.contains "a" = false ∧ storeALost.contains "b" = false ∧
    storeALost.secrets_encrypted = none :=
  ⟨rfl, rfl, rfl, rfl, rfl⟩

/-- C2 counterexample.  pop on a bound Encrypted secret with no configured
master password raises ConfigurationError only after the label has been
removed from the outer mapping, so the failing mutation leaves the store
mutated, contradicting the claim that every failing mutation leaves every
field unchanged. -/
theorem c2_mutated_on_failure_counterexample :
    storeNoMaster.pop "a" =
      .error (.configurationError, { storeNoMaster with secrets := [] }) ∧
    ({ storeNoMaster with secrets := ([] : List (String × Secret)) }).secrets ≠
      storeNoMaster.secrets :=
  ⟨rfl, by decide⟩

/-- C2 amended.  The up-front label checks of add, pop, remove and move
fail before any field is mutated and return the untouched store, and a
failed add never mutates the mapping, the ciphertext or the timestamp; but
(per the counterexample) a failure inside the remove side-effect of
pop/remove/move strikes after the mapping has been mutated. -/
theorem c2_amended_mutation_boundaries (pts : PassTheSalt) (label lbl2 : String) (s : Secret) :
    (pts.contains label = true → pts.add label s = .error (.labelError, pts)) ∧
    (pts.contains label = false → pts.pop label = .error (.labelError, pts)) ∧
    (pts.contains label = false → pts.remove label = .error (.labelError, pts)) ∧
    (pts.contains lbl2 = true → pts.move label lbl2 = .error (.labelError, pts)) ∧
    (∀ e q, pts.add label s = .error (e, q) → frameEq pts q) := by
  have hpop : pts.contains label = false → pts.pop label = .error (.labelError, pts) := by
    intro h
    have hnone : assocGet pts.secrets label = none := by
      cases hcase : assocGet pts.secrets label with
      | none => rfl
      | some v =>
          unfold PassTheSalt.contains assocHas at h
          rw [hcase] at h
          simp at h
    simp [PassTheSalt.pop, hnone]
  refine ⟨?_, hpop, ?_, ?_, ?_⟩
  · intro h
    simp [PassTheSalt.add, h]
  · intro h
    simp [PassTheSalt.remove, hpop h]
  · intro h
    simp [PassTheSalt.move, h]
  · intro e q h
    unfold PassTheSalt.add at h
    split at h
    · simp only [Except.error.injEq, Prod.mk.injEq] at h
      rcases h with ⟨_, hq⟩
      subst hq
      exact ⟨rfl, rfl, rfl⟩
    · split at h
      · rename_i ep hadd
        obtain ⟨e1, q1⟩ := ep
        simp only [Except.error.injEq, Prod.mk.injEq] at h
        rcases h with ⟨he, hq⟩
        subst he; subst hq
        rcases secret_add_err (l := label) rfl hadd with ⟨_, f1, f2, f3⟩
        exact ⟨f1.symm, f2.symm, f3.symm⟩
      · cases h

/-- C2 amended witness: the duplicate-label check of add fails on a
concrete store and hands back the untouched store. -/
theorem c2_amended_witness :
    storeA.add "a" encA = .error (.labelError, storeA) :=
  ((c2_amended_mutation_boundaries storeA "a" "x" encA).1) rfl

/-- C5.  A second add under a label that a successful add has just
introduced always fails with LabelError, and the error carries the store
of the first add unchanged (in particular its label set is unchanged). -/
theorem c5_duplicate_add_fails (pts pts' : PassTheSalt) (label : String) (s s2 : Secret)
    (h : pts.add label s = .ok pts') :
    pts'.contains label = true ∧ pts'.add label s2 = .error (.labelError, pts') := by
  have hc : pts'.contains label = true := by
    unfold PassTheSalt.add at h
    split at h
    · cases h
    · split at h
      · cases h
      · rename_i s1 p1 hadd
        simp only [Except.ok.injEq] at h
        subst h
        exact assocHas_append_self p1.secrets label s1
  exact ⟨hc, by simp [PassTheSalt.add, hc]⟩

/-- C5 witness at the concrete one-secret store. -/
theorem c5_duplicate_add_witness :
    storeA.contains "a" = true ∧ storeA.add "a" encA = .error (.labelError, storeA) :=
  c5_duplicate_add_fails emptyStoreM storeA "a" encA encA rfl

/-- C9.  resolve on a string that is an existing label returns it through
the exact-membership short-circuit, with no condition on the label being a
compilable regex pattern: no regex compilation happens on this path, so no
invalid-pattern LabelError can occur. -/
theorem c9_exact_label_no_compile (pts : PassTheSalt) (l : String)
    (h : pts.contains l = true) : pts.resolve l = .ok l := by
  simp [PassTheSalt.resolve, h]

/-- C9 witness: the stored label is an invalid regex pattern (unbalanced
parenthesis, reCompile rejects it), yet it resolves to itself. -/
theorem c9_exact_label_witness :
    parenStore.resolve "ab(" = .ok "ab(" ∧ reCompile "ab(" = none :=
  ⟨c9_exact_label_no_compile parenStore "ab(" rfl, by decide⟩

/-- C3.  Along every sequence of successful store mutations from a store
satisfying the invariant, the ciphertext is absent exactly when the
decrypted substore mapping is empty — an empty mapping is never stored as
a ciphertext, a present ciphertext holds a nonempty mapping encrypted
under the current master key — and an absent ciphertext decrypts to the
empty mapping. -/
theorem c3_encrypted_substore_invariant (pts pts' : PassTheSalt)
    (h0 : EncInv pts) (h : Relation.ReflTransGen StoreStep pts pts') :
    EncInv pts' ∧ (pts'.secrets_encrypted = none → ptsDecrypt pts' = .ok ([], pts')) := by
  refine ⟨?_, ?_⟩
  · induction h with
    | refl => exact h0
    | tail hsteps hstep ih =>
        cases hstep with
        | add lbl s hadd => exact store_add_inv hadd ih
        | pop lbl s hpop => exact store_pop_inv hpop ih
        | remove lbl hrem => exact store_remove_inv hrem ih
        | move lbl lbl2 hmv => exact store_move_inv hmv ih
  · intro hnone
    simp [ptsDecrypt, hnone]

/-- C3 witness: the invariant holds after the concrete add step that
builds storeA from the empty store. -/
theorem c3_invariant_witness :
    EncInv storeA ∧ (storeA.secrets_encrypted = none → ptsDecrypt storeA = .ok ([], storeA)) :=
  c3_encrypted_substore_invariant emptyStoreM storeA (fun c hc => nomatch hc)
    (Relation.ReflTransGen.single (StoreStep.add "a" encA rfl))

/-- C4.  resolve returns an existing label unchanged (exact-match
short-circuit, regardless of any regex reading of the pattern); otherwise
it returns the unique label produced by labels when there is exactly one,
and fails with LabelError when labels produces zero or at least two. -/
theorem c4_resolve_semantics (pts : PassTheSalt) (p : String) :
    (pts.contains p = true → pts.resolve p = .ok p) ∧
    (pts.contains p = false →
      ∀ L, pts.labels (some p) = .ok L →
        (∀ l, L = [l] → pts.resolve p = .ok l) ∧
        (L = [] → pts.resolve p = .error .labelError) ∧
        (2 ≤ L.length → pts.resolve p = .error .labelError)) := by
  constructor
  · intro h
    simp [PassTheSalt.resolve, h]
  · intro h L hL
    refine ⟨?_, ?_, ?_⟩
    · intro l hEq
      subst hEq
      simp [PassTheSalt.resolve, h, hL]
    · intro hEq
      subst hEq
      simp [PassTheSalt.resolve, h, hL]
    · intro h2
      match L, h2 with
      | a :: b :: rest, _ => simp [PassTheSalt.resolve, h, hL]

/-- C4 witness: the specification's three-label example.  The exact label
resolves to itself, a uniquely matching regex resolves to its one match,
and an ambiguous pattern with two matches fails with LabelError. -/
theorem c4_resolve_witness :
    demoStore.resolve "work/email" = .ok "work/email" ∧
    demoStore.resolve "home/.*" = .ok "home/wifi" ∧
    demoStore.resolve "work/" = .error .labelError := by
  refine ⟨?_, ?_, ?_⟩
  · exact (c4_resolve_semantics demoStore "work/email").1 (by decide)
  · exact (((c4_resolve_semantics demoStore "home/.*").2 (by decide))
      ["home/wifi"] rfl).1 "home/wifi" rfl
  · exact (((c4_resolve_semantics demoStore "work/").2 (by decide))
      ["work/email", "work/vpn"] rfl).2.2 (by decide)

/-- C6.  master_key fails with ConfigurationError when no source is
configured; a callback source is invoked exactly once — the read bumps the
invocation counter, caches the result as a plain string, and a subsequent
read returns the same key from the cache without changing the store (so
without re-invoking the callback); a string source is returned as the key
directly; and the key is the owner joined to the master with a pipe when a
nonempty owner is configured, else the master alone. -/
theorem c6_master_key_spec (pts : PassTheSalt) :
    (pts.master = none → masterKey pts = .error (.configurationError, pts)) ∧
    (∀ r, pts.master = some (.callback r) →
      masterKey pts = .ok (masterKeyOf pts.config.owner r,
        { pts with master := some (.str r),
                   masterInvocations := pts.masterInvocations + 1 }) ∧
      masterKey { pts with master := some (.str r),
                           masterInvocations := pts.masterInvocations + 1 } =
        .ok (masterKeyOf pts.config.owner r,
          { pts with master := some (.str r),
                     masterInvocations := pts.masterInvocations + 1 })) ∧
    (∀ m, pts.master = some (.str m) → masterKey pts = .ok (masterKeyOf pts.config.owner m, pts)) ∧
    (∀ o m, pts.config.owner = some o → o ≠ "" →
      masterKeyOf pts.config.owner m = o ++ "|" ++ m) ∧
    (∀ m, pts.config.owner = none ∨ pts.config.owner = some "" →
      masterKeyOf pts.config.owner m = m) := by
  refine ⟨?_, ?_, ?_, ?_, ?_⟩
  · intro h
    simp [masterKey, h]
  · intro r h
    constructor
    · simp [masterKey, h]
    · simp [masterKey]
  · intro m h
    simp [masterKey, h]
  · intro o m ho hne
    rw [ho]
    simp [masterKeyOf, joinPipe, hne]
  · intro m ho
    rcases ho with ho | ho <;> rw [ho] <;> simp [masterKeyOf, joinPipe]

/-- C6 witness: a callback source with a configured owner is read twice;
the first read invokes and caches, the second read reuses the cache and
leaves the store (and its invocation counter) unchanged. -/
theorem c6_master_key_witness :
    masterKey cbStore = .ok (masterKeyOf cbStore.config.owner "pw",
      { cbStore with master := some (.str "pw"), masterInvocations := 1 }) ∧
    masterKey { cbStore with master := some (.str "pw"), masterInvocations := 1 } =
      .ok (masterKeyOf cbStore.config.owner "pw",
        { cbStore with master := some (.str "pw"), masterInvocations := 1 }) :=
  (c6_master_key_spec cbStore).2.1 "pw" rfl

/-- C7.  On an unbound secret of any concrete variant, get, add and remove
fail with ContextError and leave the store untouched; once a context is
bound, whatever error these operations raise is never ContextError. -/
theorem c7_context_discipline (s : Secret) (pts : PassTheSalt) :
    (s.label = none →
      Secret.get s pts = .error (.contextError, pts) ∧
      Secret.add s pts = .error (.contextError, pts) ∧
      Secret.remove s pts = .error (.contextError, pts)) ∧
    (∀ l, s.label = some l →
      (∀ e q, Secret.get s pts = .error (e, q) → e ≠ .contextError) ∧
      (∀ e q, Secret.add s pts = .error (e, q) → e ≠ .contextError) ∧
      (∀ e q, Secret.remove s pts = .error (e, q) → e ≠ .contextError)) := by
  constructor
  · intro h
    refine ⟨?_, ?_, ?_⟩
    · unfold Secret.get
      rw [h]
    · unfold Secret.add
      rw [h]
    · unfold Secret.remove
      rw [h]
  · intro l hl
    refine ⟨?_, ?_, ?_⟩
    · intro e q h
      rcases (secret_get_frame s pts).2 e q h with hnone | hne
      · rw [hl] at hnone
        cases hnone
      · exact hne
    · intro e q h
      exact (secret_add_err hl h).1
    · intro e q h
      exact secret_remove_err hl h

/-- C7 witness: the three operations on a freshly constructed, unbound
Encrypted secret all fail with ContextError against a concrete store. -/
theorem c7_context_witness :
    Secret.get encA demoStore = .error (.contextError, demoStore) ∧
    Secret.add encA demoStore = .error (.contextError, demoStore) ∧
    Secret.remove encA demoStore = .error (.contextError, demoStore) :=
  (c7_context_discipline encA demoStore).1 rfl

/-- C8.  labels with no pattern returns all labels in insertion order; a
pattern rejected by the regex compiler fails with LabelError; and for a
compilable pattern the returned list holds exactly the labels some prefix
of which is in the pattern's language — anchored-at-start matching, not
substring search. -/
theorem c8_labels_spec (pts : PassTheSalt) (p : String) :
    (pts.labels none = .ok (pts.secrets.map Prod.fst)) ∧
    (reCompile p = none → pts.labels (some p) = .error .labelError) ∧
    (∀ r, reCompile p = some r →
      ∀ L, pts.labels (some p) = .ok L →
        ∀ l, l ∈ L ↔ (l ∈ pts.secrets.map Prod.fst ∧
          ∃ q t, q ++ t = l.data ∧ RMatches r q)) := by
  refine ⟨rfl, ?_, ?_⟩
  · intro h
    have hp : p ≠ "" := by
      intro he
      rw [he] at h
      exact absurd h (by decide)
    simp [PassTheSalt.labels, hp, h]
  · intro r hr L hL l
    by_cases hp : p = ""
    · subst hp
      have heps : reCompile "" = some Regex.eps := by decide
      rw [heps] at hr
      injection hr with hr
      subst hr
      have hL2 : Except.ok (pts.secrets.map Prod.fst) = Except.ok L := hL
      injection hL2 with hL2
      subst hL2
      constructor
      · intro hl
        exact ⟨hl, [], l.data, rfl, .eps⟩
      · intro hl
        exact hl.1
    · simp only [PassTheSalt.labels, if_neg hp, hr, Except.ok.injEq] at hL
      subst hL
      rw [List.mem_filter]
      constructor
      · intro hl
        exact ⟨hl.1, matchHere_iff.mp hl.2⟩
      · intro hl
        exact ⟨hl.1, matchHere_iff.mpr hl.2⟩

/-- C8 witness: all labels come back without a pattern, and an invalid
pattern (unbalanced parenthesis) fails with LabelError. -/
theorem c8_labels_witness :
    demoStore.labels none = .ok ["work/email", "work/vpn", "home/wifi"] ∧
    demoStore.labels (some "work(") = .error .labelError :=
  ⟨(c8_labels_spec demoStore "work(").1, (c8_labels_spec demoStore "work(").2.1 (by decide)⟩

/-- C10.  Encrypted.get is a pure read at the store level: whether it
succeeds or raises, the store it hands back agrees with the input store on
the secrets mapping, the substore ciphertext and the modification
timestamp — it decrypts but never re-encrypts or writes back. -/
theorem c10_encrypted_get_frame (s : Secret) (pts : PassTheSalt) (t : Option String)
    (l : String) (hd : s.data = .encrypted t) (hl : s.label = some l) :
    frameEq pts (outStore (Secret.get s pts)) :=
  (secret_get_frame s pts).1

/-- C10 witness: a concrete successful read of the bound Encrypted secret
of storeA returns the plaintext and leaves the three fields unchanged. -/
theorem c10_encrypted_get_witness :
    Secret.get ⟨.encrypted none, some "a"⟩ storeA = .ok ("v", storeA) ∧
    frameEq storeA (outStore (Secret.get ⟨.encrypted none, some "a"⟩ storeA)) :=
  ⟨rfl, c10_encrypted_get_frame ⟨.encrypted none, some "a"⟩ storeA none "a" rfl rfl⟩
